import Mathlib

/-!
Verification of the selective-forgetting / structured-pruning core.

Shallow embedding of the importance-scoring, unit-selection, pruning-rate
and snapshot-recovery subsystem of the Adaptive-Forgetting repository
(`src/SFN/SFNBase.py`, `src/AFN.py`), together with theorems settling the
frozen claims about it.

Machine floats are modelled by exact rationals (and reals where a Euclidean
norm is required); numpy arrays by nested lists.
-/

/-! ## Basic enumerations (src/enums.py via SFNBase.py usage) -/

/-- Layer-type tags appearing in `self.layer_types` (prefixes of scopes). -/
inductive LayerType where
  | conv
  | fc
  | layer
  | bn
  | mask
deriving DecidableEq, Repr

/-- Unit types; `NONE` marks layers excluded from importance-based selection. -/
inductive UnitType where
  | NEURON
  | FILTER
  | NONE
deriving DecidableEq, Repr

/-- Source `get_utype_from_layer_type` (SFNBase.py lines 21-35), the hard-coded
conversion from a layer type to its unit type. -/
def getUtypeFromLayerType : LayerType → UnitType
  | .conv => .FILTER
  | .fc => .NEURON
  | .layer => .NEURON
  | .bn => .NONE
  | .mask => .NONE

/-! ## C2: one step of `sequentially_selective_forget_and_predict`
(SFNBase.py lines 702-737).

In each loop iteration, after the `selective_forget` calls the code
1. computes the pruning rate and appends it to `pruning_rate_history[policy]`
   (lines 728-731), and only then
2. calls `predict_only_after_training()` and appends the result to
   `prediction_history[policy]` (lines 733-734).

An evaluation that raises is modelled by `none`: the method aborts, keeping
every state mutation already performed.  The returned `Bool` records whether
the step ran to completion. -/

/-- The two per-policy history lists mutated by a forgetting step. -/
structure ForgetHistories where
  pruningRateHistory : List ℚ
  predictionHistory : List (List ℚ)
deriving DecidableEq, Repr

/-- One step of the sequential forget loop after unit selection:
append the step's pruning rate, then evaluate; the evaluation outcome is
`some pred` on success and `none` when `predict_only_after_training` fails. -/
def forgetAndPredictStep (rate : ℚ) (evalOutcome : Option (List ℚ))
    (h : ForgetHistories) : ForgetHistories × Bool :=
  let h1 : ForgetHistories :=
    { h with pruningRateHistory := h.pruningRateHistory ++ [rate] }
  match evalOutcome with
  | none => (h1, false)
  | some pred =>
      ({ h1 with predictionHistory := h1.predictionHistory ++ [pred] }, true)

/-! ## C6: parameter snapshot stack
(`AFN.recover_params`, AFN.py lines 107-112; `SFN.recover_recent_params` /
`SFN.recover_old_params`, SFNBase.py lines 420-426).

`old_params_list.append(self.get_params())` pushes the current parameters;
`recover_params(idx)` does `self.params = self.old_params_list[idx]` with
Python indexing (negative indices count from the end) and reloads the live
session from them.  The stack itself is never popped. -/

/-- Host-model state visible to the snapshot machinery: the live parameters
and the append-only snapshot stack `old_params_list`. -/
structure ParamModel (P : Type) where
  params : P
  oldParamsList : List P
deriving DecidableEq, Repr

/-- Python `self.old_params_list.append(self.get_params())`. -/
def pushParams {P : Type} (m : ParamModel P) : ParamModel P :=
  { m with oldParamsList := m.oldParamsList ++ [m.params] }

/-- A destructive mutation of the live parameters (e.g. pruning). -/
def mutateParams {P : Type} (f : P → P) (m : ParamModel P) : ParamModel P :=
  { m with params := f m.params }

/-- Python list indexing `l[i]`: nonnegative indices from the front,
negative indices from the back, out of range is an error (`none`). -/
def pyIndex {α : Type} (l : List α) (i : ℤ) : Option α :=
  if 0 ≤ i then l.get? i.toNat
  else if 0 ≤ (l.length : ℤ) + i then l.get? ((l.length : ℤ) + i).toNat
  else none

/-- Source `recover_params(idx)`: `self.params = self.old_params_list[idx]`
(the session reload is an external-collaborator effect); the stack is read,
not popped. -/
def recoverParams {P : Type} (idx : ℤ) (m : ParamModel P) :
    Option (ParamModel P) :=
  (pyIndex m.oldParamsList idx).map (fun p => { m with params := p })

/-! ## C9/C10: the mutation loop of `selective_forget`
(SFNBase.py lines 627-700).

`_remove_pruning_units(scope, indexes)` returns immediately on an empty
index array; otherwise it records the indexes in
`layer_to_removed_unit_set[scope]`, zeroes column `i` of the weight and
entry `i` of the bias for every selected `i`, and re-registers both
variables in `self.params`.  A weight tensor is modelled by its rows along
all non-unit axes (both the fc `val_w[:, i] = 0` case and the conv
`val_w[:, :, :, i] = 0` case zero the slice of the last axis). -/

/-- Per-scope mutable state touched by `_remove_pruning_units`. -/
structure LayerState where
  weight : List (List ℚ)
  bias : List ℚ
  removed : Finset ℕ
  tracked : Bool
deriving DecidableEq

/-- Zero the unit slice `i` of the last weight axis. -/
def zeroUnitColumn (w : List (List ℚ)) (i : ℕ) : List (List ℚ) :=
  w.map (fun row => row.set i 0)

/-- Source `_remove_pruning_units` on one scope (SFNBase.py lines 674-700).
`tracked` models the `self.params[w.name] = w` / `self.params[b.name] = b`
re-registration performed only on the non-empty path. -/
def removePruningUnits (idxs : List ℕ) (l : LayerState) : LayerState :=
  if idxs.length = 0 then l
  else
    { weight := idxs.foldl zeroUnitColumn l.weight
      bias := idxs.foldl (fun b i => b.set i 0) l.bias
      removed := l.removed ∪ idxs.toFinset
      tracked := true }

/-- The mutation loop of `selective_forget` (SFNBase.py lines 667-668):
`for scope, ni in zip(scope_list, unit_indexes): self._remove_pruning_units(scope, ni)`.
`zip` pairs positionally and stops at the shorter list, so trailing scopes
are left untouched. -/
def applyForget : List (List ℕ) → List LayerState → List LayerState
  | [], ls => ls
  | _ :: _, [] => []
  | ni :: rest, l :: ls => removePruningUnits ni l :: applyForget rest ls

/-! ## Unit selection partitioning (SFNBase.py lines 430-455) -/

/-- The recursion underlying `_get_selected_by_layers` (lines 441-455):
walk the per-layer widths keeping the running divider `prev`, emitting for
each layer the selected global indices falling in `[prev, prev + size)`,
shifted down by `prev`. -/
def getSelectedByLayersFrom (sel : List ℕ) : ℕ → List ℕ → List (List ℕ)
  | _, [] => []
  | prev, sz :: rest =>
      ((sel.filter (fun x => decide (prev ≤ x ∧ x < prev + sz))).map
          (fun x => x - prev))
        :: getSelectedByLayersFrom sel (prev + sz) rest

/-- Source `_get_selected_by_layers(selected_indices)`: the per-layer widths are
`i_mat.shape[-1]` of each importance matrix. -/
def getSelectedByLayers (sizes : List ℕ) (sel : List ℕ) : List (List ℕ) :=
  getSelectedByLayersFrom sel 0 sizes

/-- The start offset of each layer's band, as accumulated by `prev_divider`. -/
def bandStartsFrom : ℕ → List ℕ → List ℕ
  | _, [] => []
  | prev, sz :: rest => prev :: bandStartsFrom (prev + sz) rest

/-- The claim's reconstruction operator: shift every layer's local output
back up by its band start and concatenate. -/
def reassembled (sizes : List ℕ) (sel : List ℕ) : List ℕ :=
  (List.zipWith (fun out off => out.map (fun y => y + off))
    (getSelectedByLayers sizes sel) (bandStartsFrom 0 sizes)).flatten

/-- Source `_get_selected_by_layerwise_pruning(asc_sorted_idx, number_to_select)`
(SFNBase.py lines 430-439): split the full ranking by layer, then keep the
first `int(sz * ratio)` entries of each layer's slice, where the ratio is
`number_to_select / len(asc_sorted_idx)`. -/
def getSelectedByLayerwisePruning (sizes : List ℕ) (asc : List ℕ)
    (numberToSelect : ℕ) : List (List ℕ) :=
  let frac : ℚ := (numberToSelect : ℚ) / (asc.length : ℚ)
  (getSelectedByLayers sizes asc).map
    (fun selOfLayer =>
      selOfLayer.take (Nat.floor ((selOfLayer.length : ℚ) * frac)))

/-! ### Theorems for C10 -/

/-- C10. Removing an empty unit selection is a complete no-op:
`_remove_pruning_units` with an empty index array returns immediately,
leaving the weight values, the bias values, the removed-unit set and the
tracked parameter mapping of the scope unchanged. -/
theorem removePruningUnits_nil_noop (l : LayerState) :
    (removePruningUnits [] l).weight = l.weight ∧
    (removePruningUnits [] l).bias = l.bias ∧
    (removePruningUnits [] l).removed = l.removed ∧
    (removePruningUnits [] l).tracked = l.tracked ∧
    removePruningUnits [] l = l := by
  simp [removePruningUnits]

/-! ### Theorems for C2 -/

/-- C2 counterexample. The claim says a failed evaluation leaves both
history lists unchanged; but starting from empty histories, a step whose
evaluation fails still appends the pruning-rate entry. -/
theorem forgetStep_failed_eval_mutates_history :
    (forgetAndPredictStep 0 none ⟨[], []⟩).1.pruningRateHistory ≠ [] := by
  simp [forgetAndPredictStep]

/-- C2 amended. In `sequentially_selective_forget_and_predict`, the
performance entry is appended only after the evaluation succeeds, but the
pruning-rate entry is appended before the evaluation: a failed evaluation
leaves `prediction_history` unchanged while `pruning_rate_history` has
already gained the step's entry; a successful step appends to both. -/
theorem forgetStep_history_effects (rate : ℚ) (h : ForgetHistories) :
    ((forgetAndPredictStep rate none h).1.predictionHistory
        = h.predictionHistory ∧
      (forgetAndPredictStep rate none h).1.pruningRateHistory
        = h.pruningRateHistory ++ [rate] ∧
      (forgetAndPredictStep rate none h).2 = false) ∧
    (∀ pred : List ℚ,
      (forgetAndPredictStep rate (some pred) h).1.predictionHistory
        = h.predictionHistory ++ [pred] ∧
      (forgetAndPredictStep rate (some pred) h).1.pruningRateHistory
        = h.pruningRateHistory ++ [rate] ∧
      (forgetAndPredictStep rate (some pred) h).2 = true) := by
  refine ⟨⟨rfl, rfl, rfl⟩, fun pred => ⟨rfl, rfl, rfl⟩⟩

/-! ### Theorems for C6 -/

/-- C6. On the parameter snapshot stack: after
`push; mutate f; push; mutate g` starting from parameters `s` and an empty
episode stack, `recover(-1)` restores the most recently pushed snapshot
`f s` (the state after the first mutation), not `s`; `recover(0)` restores
the very first snapshot `s`; and recovery reads the stack without popping,
so any successful recovery leaves the stack (hence its length) unchanged,
and `recover(0)` always restores the first snapshot at any stack depth. -/
theorem recoverParams_stack_semantics {P : Type} (s : P) (f g : P → P) :
    (recoverParams (-1)
        (mutateParams g (pushParams (mutateParams f (pushParams
          (ParamModel.mk s [])))))
      = some (ParamModel.mk (f s) [s, f s])) ∧
    (recoverParams 0
        (mutateParams g (pushParams (mutateParams f (pushParams
          (ParamModel.mk s [])))))
      = some (ParamModel.mk s [s, f s])) ∧
    (∀ (m m' : ParamModel P) (idx : ℤ), recoverParams idx m = some m' →
      m'.oldParamsList = m.oldParamsList) ∧
    (∀ (m m' : ParamModel P) (p0 : P) (rest : List P),
      m.oldParamsList = p0 :: rest → recoverParams 0 m = some m' →
      m'.params = p0) := by
  refine ⟨rfl, rfl, ?_, ?_⟩
  · intro m m' idx hrec
    simp only [recoverParams, Option.map_eq_some'] at hrec
    obtain ⟨p, -, hp⟩ := hrec
    rw [← hp]
  · intro m m' p0 rest hstack hrec
    simp only [recoverParams, pyIndex, le_refl, if_pos, Int.toNat_zero,
      hstack, List.get?_cons_zero, Option.map_some'] at hrec
    cases hrec
    rfl

/-- Witness for C6 at concrete data (`P = ℕ`, `s = 1`, `f = +1`, `g = *2`). -/
theorem recoverParams_stack_semantics_witness :
    (recoverParams (-1)
        (mutateParams (· * 2) (pushParams (mutateParams (· + 1) (pushParams
          (ParamModel.mk 1 ([] : List ℕ))))))
      = some (ParamModel.mk 2 [1, 2])) ∧
    (ParamModel.mk 2 [1, 2] : ParamModel ℕ).oldParamsList
      = (ParamModel.mk 3 [1, 2] : ParamModel ℕ).oldParamsList := by
  have h := recoverParams_stack_semantics 1 (· + 1) (· * 2)
  exact ⟨h.1, h.2.2.1 (ParamModel.mk 3 [1, 2]) (ParamModel.mk 2 [1, 2]) (-1)
    (by decide)⟩

/-! ### Helper lemmas about the selection partition and the mutation loop -/

theorem getSelectedByLayersFrom_length (sel : List ℕ) :
    ∀ (prev : ℕ) (sizes : List ℕ),
      (getSelectedByLayersFrom sel prev sizes).length = sizes.length := by
  intro prev sizes
  induction sizes generalizing prev with
  | nil => rfl
  | cons sz rest ih =>
      simp only [getSelectedByLayersFrom, List.length_cons, ih]

theorem applyForget_length (sels : List (List ℕ)) :
    ∀ ls : List LayerState, sels.length ≤ ls.length →
      (applyForget sels ls).length = ls.length := by
  induction sels with
  | nil => intro ls _; rfl
  | cons ni rest ih =>
      intro ls h
      cases ls with
      | nil => simp at h
      | cons l ls2 =>
          simp only [applyForget, List.length_cons]
          rw [ih ls2 (by simpa using h)]

theorem applyForget_getLast? (sels : List (List ℕ)) :
    ∀ ls : List LayerState, sels.length < ls.length →
      (applyForget sels ls).getLast? = ls.getLast? := by
  induction sels with
  | nil => intro ls _; rfl
  | cons ni rest ih =>
      intro ls h
      cases ls with
      | nil => simp at h
      | cons l ls2 =>
          have hlt : rest.length < ls2.length := by simpa using h
          have hlen := applyForget_length rest ls2 (le_of_lt hlt)
          simp only [applyForget]
          cases hAF : applyForget rest ls2 with
          | nil =>
              rw [hAF] at hlen
              simp only [List.length_nil] at hlen
              omega
          | cons x xs =>
              cases ls2 with
              | nil => simp at hlt
              | cons l2 ls3 =>
                  rw [List.getLast?_cons_cons, ← hAF, ih _ hlt,
                    List.getLast?_cons_cons]

/-! ### Theorems for C9 -/

/-- C9. The method `selective_forget` never mutates the final (output) layer: the
selection tuple produced by either pruning path has exactly one entry per
importance matrix — one fewer than the number of layer scopes — so the
`zip(scope_list, unit_indexes)` pairing stops before the last scope, and the
whole mutation loop leaves the final layer's state (its weight and bias
included) unchanged. -/
theorem selectiveForget_spares_final_layer (sizes : List ℕ) (sel asc : List ℕ)
    (numberToSelect : ℕ) (layers : List LayerState)
    (hlen : layers.length = sizes.length + 1) :
    (getSelectedByLayers sizes sel).length = sizes.length ∧
    (getSelectedByLayerwisePruning sizes asc numberToSelect).length
      = sizes.length ∧
    (∀ sels : List (List ℕ), sels.length = sizes.length →
      (applyForget sels layers).length = layers.length ∧
      (applyForget sels layers).getLast? = layers.getLast?) := by
  refine ⟨getSelectedByLayersFrom_length sel 0 sizes, ?_, ?_⟩
  · simp only [getSelectedByLayerwisePruning, List.length_map]
    exact getSelectedByLayersFrom_length asc 0 sizes
  · intro sels hsels
    have hlt : sels.length < layers.length := by omega
    exact ⟨applyForget_length sels layers (le_of_lt hlt),
      applyForget_getLast? sels layers hlt⟩

/-- Witness for C9 at a concrete two-hidden-layer network. -/
theorem selectiveForget_spares_final_layer_witness :
    (getSelectedByLayers [1, 1] [0, 1]).length = 2 ∧
    (applyForget (getSelectedByLayers [1, 1] [0, 1])
        [⟨[[1]], [1], ∅, false⟩, ⟨[[2]], [2], ∅, false⟩,
          ⟨[[3]], [3], ∅, false⟩]).getLast?
      = some ⟨[[3]], [3], ∅, false⟩ := by
  have h := selectiveForget_spares_final_layer [1, 1] [0, 1] [0, 1] 1
    [⟨[[1]], [1], ∅, false⟩, ⟨[[2]], [2], ∅, false⟩, ⟨[[3]], [3], ∅, false⟩]
    rfl
  refine ⟨h.1, ?_⟩
  rw [(h.2.2 _ h.1).2]
  rfl

/-! ### Theorems for C7 -/

/-- C7. With layerwise pruning enabled, selection takes
`floor(layer_size * count / total_units)` units from each layer's local
ranking instead of a global bottom-`count` slice: for two layers with unit
counts 4 and 6 and a requested count of 3, exactly 1 unit is taken from
each layer, for a total of 2 selected units, not 3. -/
theorem layerwise_pruning_proportional (asc : List ℕ)
    (hperm : asc.Perm (List.range 10)) :
    (getSelectedByLayerwisePruning [4, 6] asc 3).map List.length = [1, 1] ∧
    (getSelectedByLayerwisePruning [4, 6] asc 3).flatten.length = 2 := by
  have hlen : asc.length = 10 := by
    rw [hperm.length_eq, List.length_range]
  have hc1 : (asc.filter (fun x => decide (0 ≤ x ∧ x < 0 + 4))).length = 4 := by
    rw [← List.countP_eq_length_filter, hperm.countP_eq]
    decide
  have hc2 : (asc.filter
      (fun x => decide (0 + 4 ≤ x ∧ x < 0 + 4 + 6))).length = 6 := by
    rw [← List.countP_eq_length_filter, hperm.countP_eq]
    decide
  have hmain : (getSelectedByLayerwisePruning [4, 6] asc 3).map List.length
      = [1, 1] := by
    simp only [getSelectedByLayerwisePruning, getSelectedByLayers,
      getSelectedByLayersFrom, hlen, List.map_cons, List.map_nil,
      List.length_take, List.length_map, hc1, hc2]
    norm_num
    have hf1 : ⌊(6 : ℚ) / 5⌋₊ = 1 := by
      rw [Nat.floor_eq_iff (by norm_num)]
      norm_num
    have hf2 : ⌊(9 : ℚ) / 5⌋₊ = 1 := by
      rw [Nat.floor_eq_iff (by norm_num)]
      norm_num
    rw [hf1, hf2]
    decide
  refine ⟨hmain, ?_⟩
  rw [List.length_flatten, ← List.map_id ((getSelectedByLayerwisePruning
    [4, 6] asc 3).map List.length)] at *
  rw [hmain]
  rfl

/-! ### Helper lemmas for C4: bands partition the global index range -/

theorem filter_append_filter_perm (p q : ℕ → Bool) (l : List ℕ)
    (hdisj : ∀ x, ¬(p x = true ∧ q x = true)) :
    (l.filter p ++ l.filter q).Perm (l.filter (fun x => p x || q x)) := by
  induction l with
  | nil => simp
  | cons a l ih =>
      rcases hpa : p a with _ | _
      · rcases hqa : q a with _ | _
        · simpa [List.filter_cons, hpa, hqa] using ih
        · simp only [List.filter_cons, hpa, hqa, Bool.false_or, if_pos,
            if_neg, Bool.false_eq_true, not_false_iff, if_true]
          exact List.perm_middle.trans (ih.cons a)
      · have hqa : q a = false := by
          rcases hq : q a with _ | _
          · rfl
          · exact absurd ⟨hpa, hq⟩ (hdisj a)
        simp only [List.filter_cons, hpa, hqa, Bool.true_or, if_true,
          Bool.false_eq_true, not_false_iff, List.cons_append]
        exact ih.cons a

theorem reassembledFrom_perm (sel : List ℕ) :
    ∀ (sizes : List ℕ) (prev : ℕ),
      ((List.zipWith (fun out off => out.map (fun y => y + off))
        (getSelectedByLayersFrom sel prev sizes)
        (bandStartsFrom prev sizes)).flatten).Perm
      (sel.filter (fun x => decide (prev ≤ x ∧ x < prev + sizes.sum))) := by
  intro sizes
  induction sizes with
  | nil =>
      intro prev
      have hnil : sel.filter (fun x => decide (prev ≤ x ∧ x < prev + 0))
          = [] := by
        rw [List.filter_eq_nil_iff]
        intro a _
        simp only [decide_eq_true_eq, not_and]
        omega
      simp [getSelectedByLayersFrom, bandStartsFrom, hnil]
  | cons sz rest ih =>
      intro prev
      simp only [getSelectedByLayersFrom, bandStartsFrom,
        List.zipWith_cons_cons, List.flatten_cons]
      have hhead : ((sel.filter
            (fun x => decide (prev ≤ x ∧ x < prev + sz))).map
              (fun x => x - prev)).map (fun y => y + prev)
          = sel.filter (fun x => decide (prev ≤ x ∧ x < prev + sz)) := by
        rw [List.map_map]
        have hpt : ∀ x ∈ sel.filter
            (fun x => decide (prev ≤ x ∧ x < prev + sz)),
            ((fun y => y + prev) ∘ fun x => x - prev) x = id x := by
          intro x hx
          simp only [List.mem_filter, decide_eq_true_eq] at hx
          simp only [Function.comp_apply, id_eq]
          omega
        rw [List.map_congr_left hpt, List.map_id]
      rw [hhead]
      refine (List.Perm.append_left _ (ih (prev + sz))).trans ?_
      refine (filter_append_filter_perm _ _ sel ?_).trans ?_
      · intro x
        simp only [decide_eq_true_eq, not_and]
        omega
      · have hsame : ∀ a ∈ sel,
            ((decide (prev ≤ a ∧ a < prev + sz) ||
              decide (prev + sz ≤ a ∧ a < prev + sz + rest.sum)) : Bool)
            = decide (prev ≤ a ∧ a < prev + (sz :: rest).sum) := by
          intro a _
          rw [Bool.eq_iff_iff]
          simp only [Bool.or_eq_true, decide_eq_true_eq, List.sum_cons]
          omega
        rw [List.filter_congr hsame]

theorem getSelectedByLayersFrom_mem (sel : List ℕ) :
    ∀ (sizes : List ℕ) (prev i : ℕ), i < sizes.length →
      ∀ y : ℕ, (y ∈ (getSelectedByLayersFrom sel prev sizes).getD i [] ↔
        (y < sizes.getD i 0 ∧
          y + (bandStartsFrom prev sizes).getD i 0 ∈ sel)) := by
  intro sizes
  induction sizes with
  | nil => intro prev i hi; simp at hi
  | cons sz rest ih =>
      intro prev i hi y
      cases i with
      | zero =>
          simp only [getSelectedByLayersFrom, bandStartsFrom,
            List.getD_cons_zero]
          constructor
          · intro hy
            simp only [List.mem_map, List.mem_filter,
              decide_eq_true_eq] at hy
            obtain ⟨x, ⟨hxsel, hxb⟩, hxy⟩ := hy
            refine ⟨by omega, ?_⟩
            have hx : y + prev = x := by omega
            rw [hx]
            exact hxsel
          · intro hy
            simp only [List.mem_map, List.mem_filter, decide_eq_true_eq]
            exact ⟨y + prev, ⟨hy.2, by omega⟩, by omega⟩
      | succ j =>
          simp only [getSelectedByLayersFrom, bandStartsFrom,
            List.getD_cons_succ]
          exact ih (prev + sz) j (by simpa using hi) y

theorem bandStartsFrom_getD (sizes : List ℕ) :
    ∀ (prev i : ℕ), i < sizes.length →
      (bandStartsFrom prev sizes).getD i 0 = prev + (sizes.take i).sum := by
  induction sizes with
  | nil => intro prev i hi; simp at hi
  | cons sz rest ih =>
      intro prev i hi
      cases i with
      | zero => simp [bandStartsFrom]
      | succ j =>
          simp only [bandStartsFrom, List.getD_cons_succ,
            List.take_succ_cons, List.sum_cons]
          rw [ih (prev + sz) j (by simpa using hi)]
          omega

theorem take_succ_sum (sizes : List ℕ) :
    ∀ i, i < sizes.length →
      (sizes.take (i + 1)).sum = (sizes.take i).sum + sizes.getD i 0 := by
  induction sizes with
  | nil => intro i hi; simp at hi
  | cons sz rest ih =>
      intro i hi
      cases i with
      | zero => simp
      | succ j =>
          simp only [List.take_succ_cons, List.sum_cons,
            List.getD_cons_succ]
          rw [ih j (by simpa using hi)]
          omega

theorem take_sum_mono (sizes : List ℕ) :
    ∀ a b, a ≤ b → (sizes.take a).sum ≤ (sizes.take b).sum := by
  induction sizes with
  | nil => intro a b _; simp
  | cons sz rest ih =>
      intro a b hab
      cases a with
      | zero => simp
      | succ a2 =>
          cases b with
          | zero => omega
          | succ b2 =>
              simp only [List.take_succ_cons, List.sum_cons]
              have := ih a2 b2 (by omega)
              omega

theorem exists_band (sizes : List ℕ) :
    ∀ x, x < sizes.sum → ∃ i, i < sizes.length ∧
      (sizes.take i).sum ≤ x ∧ x < (sizes.take (i + 1)).sum := by
  induction sizes with
  | nil => intro x hx; simp at hx
  | cons sz rest ih =>
      intro x hx
      by_cases hxsz : x < sz
      · exact ⟨0, by simp, by simp, by simpa using hxsz⟩
      · have hxr : x - sz < rest.sum := by
          simp only [List.sum_cons] at hx
          omega
        obtain ⟨i, hi, hlo, hhi⟩ := ih (x - sz) hxr
        refine ⟨i + 1, by simpa using hi, ?_, ?_⟩
        · simp only [List.take_succ_cons, List.sum_cons]
          omega
        · simp only [List.take_succ_cons, List.sum_cons]
          omega

theorem band_unique (sizes : List ℕ) (x i j : ℕ)
    (_hi : i < sizes.length) (_hj : j < sizes.length)
    (hxi : (sizes.take i).sum ≤ x ∧ x < (sizes.take (i + 1)).sum)
    (hxj : (sizes.take j).sum ≤ x ∧ x < (sizes.take (j + 1)).sum) :
    i = j := by
  by_contra hne
  rcases Nat.lt_or_ge i j with hij | hij
  · have h1 := take_sum_mono sizes (i + 1) j (by omega)
    omega
  · have h2 := take_sum_mono sizes (j + 1) i (by omega)
    omega

/-! ## C5: `_get_indices_of_certain_utype` (SFNBase.py lines 457-489)

The first loop (lines 470-477) groups unit counts by contiguous runs of
identical unit type into an `OrderedDict` (a key already present keeps its
position and is reset to `0` when its run restarts).  The second loop
(lines 479-487) scans the dict computing each band as
`[start_idx, start_idx + count)` — and then updates the running offset with
the literal `start_idx = utypes_to_num_units[utype]` of the source (it
assigns the current count instead of accumulating), which is faithfully
reproduced below. -/

/-- Python `utypes_to_num_units[utype_to_loop] = 0` on an `OrderedDict`. -/
def setZero (d : List (UnitType × ℕ)) (u : UnitType) : List (UnitType × ℕ) :=
  if (d.map Prod.fst).contains u then
    d.map (fun p => if p.1 = u then (p.1, 0) else p)
  else d ++ [(u, 0)]

/-- Python `utypes_to_num_units[utype_to_loop] += n`. -/
def addCount (d : List (UnitType × ℕ)) (u : UnitType) (n : ℕ) :
    List (UnitType × ℕ) :=
  d.map (fun p => if p.1 = u then (p.1, p.2 + n) else p)

/-- The run-grouping loop over `zip(utypes_of_layers, importance_matrix_tuple)`,
carrying `utype_to_loop` (`none` initially). -/
def buildUtypeCounts :
    List (UnitType × ℕ) → Option UnitType → List (UnitType × ℕ) →
      List (UnitType × ℕ)
  | [], _, d => d
  | (u, n) :: rest, uLoop, d =>
      buildUtypeCounts rest (some u)
        (addCount (if uLoop = some u then d else setZero d u) u n)

/-- The band scan, with the source's non-accumulating offset update:
the next iteration's `start_idx` is the current key's count. -/
def scanBands (u : UnitType) : List (UnitType × ℕ) → ℕ → Option (ℕ × ℕ)
  | [], _ => none
  | (k, n) :: rest, start =>
      if k = u then some (start, start + n) else scanBands u rest n

/-- Source `_get_indices_of_certain_utype(ordered_indices, certain_utype)`:
the two asserts are modelled as failures (`none`), as is the implicit
`None` return when the requested unit type never matches a band. -/
def getIndicesOfCertainUtype (layerTypes : List LayerType) (sizes : List ℕ)
    (ordered : List ℕ) (u : UnitType) : Option (List ℕ) :=
  let utypes := layerTypes.map getUtypeFromLayerType
  if utypes.length ≠ sizes.length + 1 then none
  else if u ∉ utypes then none
  else if utypes.dedup.length = 1 then some ordered
  else
    match scanBands u (buildUtypeCounts (utypes.zip sizes) none []) 0 with
    | some (lo, hi) =>
        some (ordered.filter (fun x => decide (lo ≤ x ∧ x < hi)))
    | none => none

/-! ### Theorem for C5 -/

/-- C5 code bug. With layer types `[conv, bn, fc, fc]` and importance
widths `[2, 3, 4]` (three contiguous unit-type runs, 9 units total), the
NEURON band is computed as `[3, 7)` instead of the correct `[5, 9)`,
because the scan's offset update assigns the current run's count instead of
accumulating.  Consequently the union over all declared unit types of the
filtered full range `[0, 9)` keeps indices 3 and 4 twice, drops 8 (and 7),
and is not a permutation of the full range — contradicting the claim for
layer sequences with three or more unit-type runs. -/
theorem utypeFilter_band_bug :
    getIndicesOfCertainUtype [LayerType.conv, LayerType.bn, LayerType.fc,
        LayerType.fc] [2, 3, 4] (List.range 9) UnitType.NEURON
      = some [3, 4, 5, 6] ∧
    getIndicesOfCertainUtype [LayerType.conv, LayerType.bn, LayerType.fc,
        LayerType.fc] [2, 3, 4] (List.range 9) UnitType.FILTER
      = some [0, 1] ∧
    getIndicesOfCertainUtype [LayerType.conv, LayerType.bn, LayerType.fc,
        LayerType.fc] [2, 3, 4] (List.range 9) UnitType.NONE
      = some [2, 3, 4] ∧
    8 ∉ ((getIndicesOfCertainUtype [LayerType.conv, LayerType.bn,
        LayerType.fc, LayerType.fc] [2, 3, 4] (List.range 9)
          UnitType.FILTER).getD []
      ++ (getIndicesOfCertainUtype [LayerType.conv, LayerType.bn,
        LayerType.fc, LayerType.fc] [2, 3, 4] (List.range 9)
          UnitType.NONE).getD []
      ++ (getIndicesOfCertainUtype [LayerType.conv, LayerType.bn,
        LayerType.fc, LayerType.fc] [2, 3, 4] (List.range 9)
          UnitType.NEURON).getD []) ∧
    ((getIndicesOfCertainUtype [LayerType.conv, LayerType.bn,
        LayerType.fc, LayerType.fc] [2, 3, 4] (List.range 9)
          UnitType.FILTER).getD []
      ++ (getIndicesOfCertainUtype [LayerType.conv, LayerType.bn,
        LayerType.fc, LayerType.fc] [2, 3, 4] (List.range 9)
          UnitType.NONE).getD []
      ++ (getIndicesOfCertainUtype [LayerType.conv, LayerType.bn,
        LayerType.fc, LayerType.fc] [2, 3, 4] (List.range 9)
          UnitType.NEURON).getD []).count 3 = 2 ∧
    ¬ ((getIndicesOfCertainUtype [LayerType.conv, LayerType.bn,
        LayerType.fc, LayerType.fc] [2, 3, 4] (List.range 9)
          UnitType.FILTER).getD []
      ++ (getIndicesOfCertainUtype [LayerType.conv, LayerType.bn,
        LayerType.fc, LayerType.fc] [2, 3, 4] (List.range 9)
          UnitType.NONE).getD []
      ++ (getIndicesOfCertainUtype [LayerType.conv, LayerType.bn,
        LayerType.fc, LayerType.fc] [2, 3, 4] (List.range 9)
          UnitType.NEURON).getD []).Perm (List.range 9) := by
  decide

/-- When a single unit type spans all layers, the filter is the identity on
its input — the part of C5's claim that does hold, at the type sequence
`[fc, fc, fc]`. -/
theorem utypeFilter_single_utype_identity (ordered : List ℕ) :
    getIndicesOfCertainUtype [LayerType.fc, LayerType.fc, LayerType.fc]
        [3, 4] ordered UnitType.NEURON = some ordered := by
  rfl

/-! ### Theorems for C4 -/

/-- C4. The function `_get_selected_by_layers` exactly inverts column-wise
concatenation: for indices drawn from `[0, total)`, (i) shifting every
layer's local output back by its band start and concatenating reconstructs
the input as a multiset (round-trip, nothing dropped, nothing duplicated),
(ii) every input index appears in exactly one layer's shifted output, and
(iii) a local value `y` is in layer `i`'s output precisely when it is below
that layer's width and `y +` the layer's start offset occurs in the input. -/
theorem splitByLayers_partition (sizes : List ℕ) (sel : List ℕ)
    (hb : ∀ x ∈ sel, x < sizes.sum) :
    (reassembled sizes sel).Perm sel ∧
    (∀ x ∈ sel, ∃! i : ℕ, i < sizes.length ∧
      x ∈ ((getSelectedByLayers sizes sel).getD i []).map
        (fun y => y + (bandStartsFrom 0 sizes).getD i 0)) ∧
    (∀ i, i < sizes.length → ∀ y,
      (y ∈ (getSelectedByLayers sizes sel).getD i [] ↔
        (y < sizes.getD i 0 ∧
          y + (bandStartsFrom 0 sizes).getD i 0 ∈ sel))) := by
  have hshift : ∀ i x, i < sizes.length →
      (x ∈ ((getSelectedByLayers sizes sel).getD i []).map
          (fun y => y + (bandStartsFrom 0 sizes).getD i 0) ↔
        (x ∈ sel ∧ (sizes.take i).sum ≤ x ∧
          x < (sizes.take (i + 1)).sum)) := by
    intro i x hi
    simp only [getSelectedByLayers, List.mem_map]
    constructor
    · intro hx
      obtain ⟨y, hy, hxy⟩ := hx
      rw [getSelectedByLayersFrom_mem sel sizes 0 i hi y,
        bandStartsFrom_getD sizes 0 i hi] at hy
      rw [bandStartsFrom_getD sizes 0 i hi] at hxy
      have hts := take_succ_sum sizes i hi
      refine ⟨?_, by omega, by omega⟩
      have hx2 : x = y + (0 + (sizes.take i).sum) := hxy.symm
      rw [hx2]
      exact hy.2
    · intro ⟨hxsel, hlo, hhi⟩
      refine ⟨x - (sizes.take i).sum, ?_, ?_⟩
      · rw [getSelectedByLayersFrom_mem sel sizes 0 i hi,
          bandStartsFrom_getD sizes 0 i hi]
        have hts := take_succ_sum sizes i hi
        constructor
        · omega
        · have hx2 : x - (sizes.take i).sum + (0 + (sizes.take i).sum)
              = x := by omega
          rw [hx2]
          exact hxsel
      · rw [bandStartsFrom_getD sizes 0 i hi]
        omega
  refine ⟨?_, ?_, ?_⟩
  · have hperm := reassembledFrom_perm sel sizes 0
    have hfull : sel.filter
        (fun x => decide (0 ≤ x ∧ x < 0 + sizes.sum)) = sel := by
      rw [List.filter_eq_self]
      intro a ha
      simp only [decide_eq_true_eq]
      exact ⟨by omega, by simpa using hb a ha⟩
    rw [hfull] at hperm
    exact hperm
  · intro x hx
    obtain ⟨i, hi, hlo, hhi⟩ := exists_band sizes x (hb x hx)
    refine ⟨i, ⟨hi, (hshift i x hi).mpr ⟨hx, hlo, hhi⟩⟩, ?_⟩
    intro j hj
    obtain ⟨hjlen, hjmem⟩ := hj
    have hj2 := (hshift j x hjlen).mp hjmem
    exact band_unique sizes x j i hjlen hi ⟨hj2.2.1, hj2.2.2⟩ ⟨hlo, hhi⟩
  · intro i hi y
    simpa only [getSelectedByLayers] using
      getSelectedByLayersFrom_mem sel sizes 0 i hi y

/-- Witness for C4 at `sizes = [2, 3]`, `sel = [4, 0, 2]`. -/
theorem splitByLayers_partition_witness :
    (reassembled [2, 3] [4, 0, 2]).Perm [4, 0, 2] :=
  (splitByLayers_partition [2, 3] [4, 0, 2] (by decide)).1

/-! ## C1: `get_parameter_level_pruning_rate` (SFNBase.py lines 759-790) -/

/-- A scope of the host network: its layer type and the shape of its
`weight` tensor (the last dimension is the unit dimension); the matching
`biases` param has shape `(last dim,)`. -/
structure NetLayer where
  lt : LayerType
  wshape : List ℕ
deriving DecidableEq, Repr

/-- Number of units of a scope = the last weight dimension = bias length. -/
def nUnitsOf (l : NetLayer) : ℕ := l.wshape.getLastD 0

/-- Denominator (lines 769-774): `np.prod(param_shape)` summed over both
params (`weight`, `biases`) of every scope whose unit type is in
`utype_list`. -/
def totalParamsOfInterest (net : List NetLayer) (utl : List UnitType) : ℕ :=
  (net.map (fun l =>
    if getUtypeFromLayerType l.lt ∈ utl then l.wshape.prod + nUnitsOf l
    else 0)).sum

/-- Length of Python's `zip(*xs)`: 0 for no iterables, else the minimum. -/
def minLen : List (List (List ℕ)) → ℕ
  | [] => 0
  | [g] => g.length
  | g :: g2 :: rest => min g.length (minLen (g2 :: rest))

/-- Python `zip(*list_of_unit_indices_by_layer)`: the i-th transposed tuple holds
every unit-type group's selection for layer i. -/
def zipStar (sels : List (List (List ℕ))) : List (List (List ℕ)) :=
  (List.range (minLen sels)).map (fun i => sels.map (fun g => g.getD i []))

/-- Numerator (lines 776-788): pair the transposed tuples with the scope
list, concatenate each layer's per-unit-type selections, and charge
`np.prod(weight_shape[:-1]) * num_pruned_unit + num_pruned_unit`. -/
def prunedParams (net : List NetLayer) (sels : List (List (List ℕ))) : ℕ :=
  (((zipStar sels).zip net).map (fun p =>
    p.2.wshape.dropLast.prod * p.1.flatten.length + p.1.flatten.length)).sum

/-- Source `get_parameter_level_pruning_rate`:
`float(num_total_pruned_parameters / num_total_parameters)`. -/
def pruningRate (net : List NetLayer) (utl : List UnitType)
    (sels : List (List (List ℕ))) : ℚ :=
  (prunedParams net sels : ℚ) / (totalParamsOfInterest net utl : ℚ)

/-! ### Helper lemmas for C1 -/

theorem prunedSum_mono (net : List NetLayer) :
    ∀ zs1 zs2 : List (List (List ℕ)), zs1.length = zs2.length →
      (∀ i, (zs1.getD i []).flatten.length
          ≤ (zs2.getD i []).flatten.length) →
      ((zs1.zip net).map (fun p =>
          p.2.wshape.dropLast.prod * p.1.flatten.length
            + p.1.flatten.length)).sum ≤
      ((zs2.zip net).map (fun p =>
          p.2.wshape.dropLast.prod * p.1.flatten.length
            + p.1.flatten.length)).sum := by
  induction net with
  | nil => intro zs1 zs2 _ _; simp [List.zip_nil_right]
  | cons l rest ih =>
      intro zs1 zs2 hlen hpt
      cases zs1 with
      | nil =>
          cases zs2 with
          | nil => exact le_refl _
          | cons b zs2' => simp at hlen
      | cons a zs1' =>
          cases zs2 with
          | nil => simp at hlen
          | cons b zs2' =>
              simp only [List.zip_cons_cons, List.map_cons, List.sum_cons]
              have h0 := hpt 0
              simp only [List.getD_cons_zero] at h0
              have hrest : ∀ i, (zs1'.getD i []).flatten.length
                  ≤ (zs2'.getD i []).flatten.length := by
                intro i
                simpa only [List.getD_cons_succ] using hpt (i + 1)
              have hih := ih zs1' zs2' (by simpa using hlen) hrest
              have hterm := Nat.mul_le_mul_left l.wshape.dropLast.prod h0
              omega

theorem prunedParams_eq_zero (net : List NetLayer)
    (sels : List (List (List ℕ)))
    (hempty : ∀ g ∈ sels, ∀ li ∈ g, li = ([] : List ℕ)) :
    prunedParams net sels = 0 := by
  apply List.sum_eq_zero
  intro x hx
  simp only [List.mem_map] at hx
  obtain ⟨p, hp, hpx⟩ := hx
  obtain ⟨t, layer⟩ := p
  have h1 : t ∈ zipStar sels := (List.of_mem_zip hp).1
  simp only [zipStar, List.mem_map, List.mem_range] at h1
  obtain ⟨i, _, hp1⟩ := h1
  have hflat : t.flatten = [] := by
    rw [← hp1]
    rw [List.flatten_eq_nil_iff]
    intro li hli
    simp only [List.mem_map] at hli
    obtain ⟨g, hg, hgd⟩ := hli
    rw [← hgd, List.getD_eq_getElem?_getD]
    cases hget : g[i]? with
    | none => rfl
    | some y =>
        have hy : y ∈ g := List.getElem?_mem hget
        simp only [Option.getD_some]
        exact hempty g hg y hy
  rw [← hpx, hflat]
  simp

theorem prod_eq_dropLast_prod_mul_getLastD (l : List ℕ) (h : l ≠ []) :
    l.dropLast.prod * l.getLastD 0 = l.prod := by
  conv_rhs => rw [← List.dropLast_append_getLast h]
  rw [List.prod_append, List.prod_cons, List.prod_nil, mul_one,
    List.getLastD_eq_getLast?, List.getLast?_eq_getLast l h,
    Option.getD_some]

theorem prunedSum_full (utl : List UnitType) :
    ∀ (net : List NetLayer) (zs : List (List (List ℕ))),
      net.length ≤ zs.length →
      (∀ l ∈ net, l.wshape ≠ []) →
      (∀ i, i < net.length →
        (getUtypeFromLayerType
            (net.getD i ⟨LayerType.fc, []⟩).lt ∈ utl →
          (zs.getD i []).flatten.length
            = nUnitsOf (net.getD i ⟨LayerType.fc, []⟩)) ∧
        (getUtypeFromLayerType
            (net.getD i ⟨LayerType.fc, []⟩).lt ∉ utl →
          (zs.getD i []).flatten.length = 0)) →
      ((zs.zip net).map (fun p =>
          p.2.wshape.dropLast.prod * p.1.flatten.length
            + p.1.flatten.length)).sum
        = totalParamsOfInterest net utl := by
  intro net
  induction net with
  | nil =>
      intro zs _ _ _
      simp [List.zip_nil_right, totalParamsOfInterest]
  | cons l rest ih =>
      intro zs hlen hws hsel
      cases zs with
      | nil => simp at hlen
      | cons a zs' =>
          simp only [List.zip_cons_cons, List.map_cons, List.sum_cons,
            totalParamsOfInterest]
          have h0 := hsel 0 (by simp)
          simp only [List.getD_cons_zero] at h0
          have hrest : ∀ i, i < rest.length →
              (getUtypeFromLayerType
                  (rest.getD i ⟨LayerType.fc, []⟩).lt ∈ utl →
                (zs'.getD i []).flatten.length
                  = nUnitsOf (rest.getD i ⟨LayerType.fc, []⟩)) ∧
              (getUtypeFromLayerType
                  (rest.getD i ⟨LayerType.fc, []⟩).lt ∉ utl →
                (zs'.getD i []).flatten.length = 0) := by
            intro i hi
            have := hsel (i + 1) (by simpa using Nat.succ_lt_succ hi)
            simpa only [List.getD_cons_succ] using this
          have hih := ih zs' (by simpa using hlen)
            (fun x hx => hws x (List.mem_cons_of_mem l hx)) hrest
          rw [show ((rest.map (fun l =>
              if getUtypeFromLayerType l.lt ∈ utl
              then l.wshape.prod + nUnitsOf l else 0)).sum)
            = totalParamsOfInterest rest utl from rfl] at *
          by_cases hin : getUtypeFromLayerType l.lt ∈ utl
          · have hn := h0.1 hin
            have hprod := prod_eq_dropLast_prod_mul_getLastD l.wshape
              (hws l (List.mem_cons_self l rest))
            simp only [List.map_cons, List.sum_cons, if_pos hin]
            rw [hih, hn]
            have : l.wshape.dropLast.prod * nUnitsOf l = l.wshape.prod := by
              rw [← hprod]
              rfl
            omega
          · have hn := h0.2 hin
            simp only [List.map_cons, List.sum_cons, if_neg hin]
            rw [hih, hn]
            omega

/-! ### Theorems for C1 -/

/-- C1. The parameter-level pruning rate is monotonically non-decreasing
in the per-layer selected-unit counts for a fixed layer set; it is exactly
`0` when every layer's selection is empty; and it is exactly `1` when every
layer whose unit type is of interest has all of its units selected (once
each) while layers whose unit type is not of interest have empty
selections, the selection tuples covering every scope. -/
theorem pruningRate_props (net : List NetLayer) (utl : List UnitType)
    (hden : 0 < totalParamsOfInterest net utl)
    (hws : ∀ l ∈ net, l.wshape ≠ []) :
    (∀ s1 s2 : List (List (List ℕ)),
      (zipStar s1).length = (zipStar s2).length →
      (∀ i, ((zipStar s1).getD i []).flatten.length
          ≤ ((zipStar s2).getD i []).flatten.length) →
      pruningRate net utl s1 ≤ pruningRate net utl s2) ∧
    (∀ s : List (List (List ℕ)),
      (∀ g ∈ s, ∀ li ∈ g, li = ([] : List ℕ)) →
      pruningRate net utl s = 0) ∧
    (∀ s : List (List (List ℕ)),
      net.length ≤ (zipStar s).length →
      (∀ i, i < net.length →
        (getUtypeFromLayerType
            (net.getD i ⟨LayerType.fc, []⟩).lt ∈ utl →
          ((zipStar s).getD i []).flatten.Perm
            (List.range (nUnitsOf (net.getD i ⟨LayerType.fc, []⟩)))) ∧
        (getUtypeFromLayerType
            (net.getD i ⟨LayerType.fc, []⟩).lt ∉ utl →
          ((zipStar s).getD i []).flatten = [])) →
      pruningRate net utl s = 1) := by
  have hc : (0 : ℚ) < (totalParamsOfInterest net utl : ℚ) := by
    exact_mod_cast hden
  refine ⟨?_, ?_, ?_⟩
  · intro s1 s2 hlen hpt
    have hnum : prunedParams net s1 ≤ prunedParams net s2 :=
      prunedSum_mono net (zipStar s1) (zipStar s2) hlen hpt
    rw [pruningRate, pruningRate, div_le_div_iff_of_pos_right hc]
    exact_mod_cast hnum
  · intro s hempty
    rw [pruningRate, prunedParams_eq_zero net s hempty]
    simp
  · intro s hcov hsel
    have hnum : prunedParams net s = totalParamsOfInterest net utl := by
      apply prunedSum_full utl net (zipStar s) hcov hws
      intro i hi
      obtain ⟨h1, h2⟩ := hsel i hi
      constructor
      · intro hin
        rw [(h1 hin).length_eq, List.length_range]
      · intro hnin
        rw [h2 hnin]
        rfl
    rw [pruningRate, hnum]
    exact div_self (ne_of_gt hc)

/-- Witness for C1 at a concrete two-scope fully-connected network. -/
theorem pruningRate_props_witness :
    pruningRate [⟨LayerType.fc, [2, 3]⟩, ⟨LayerType.fc, [3, 4]⟩]
        [UnitType.NEURON] [[[0], []]]
      ≤ pruningRate [⟨LayerType.fc, [2, 3]⟩, ⟨LayerType.fc, [3, 4]⟩]
        [UnitType.NEURON] [[[0, 1], [2]]] ∧
    pruningRate [⟨LayerType.fc, [2, 3]⟩, ⟨LayerType.fc, [3, 4]⟩]
        [UnitType.NEURON] [[[], []]] = 0 ∧
    pruningRate [⟨LayerType.fc, [2, 3]⟩, ⟨LayerType.fc, [3, 4]⟩]
        [UnitType.NEURON] [[[0, 1, 2], [0, 1, 2, 3]]] = 1 := by
  have h := pruningRate_props
    [⟨LayerType.fc, [2, 3]⟩, ⟨LayerType.fc, [3, 4]⟩]
    [UnitType.NEURON] (by decide) (by decide)
  refine ⟨h.1 _ _ (by decide) ?_, h.2.1 _ (by decide),
    h.2.2 _ (by decide) (by decide)⟩
  intro i
  rcases i with _ | i
  · decide
  rcases i with _ | n
  · decide
  · have h1 : (zipStar [[[0], []]]).getD (n + 1 + 1) [] = [] :=
      List.getD_eq_default _ _ (by simp [zipStar, minLen])
    have h2 : (zipStar [[[0, 1], [2]]]).getD (n + 1 + 1) [] = [] :=
      List.getD_eq_default _ _ (by simp [zipStar, minLen])
    rw [h1, h2]

/-! ## C8: `get_importance_task_related_deviation` (SFNBase.py lines 518-554) -/

/-- The four relatedness kernels dispatched on `relatedness_type`. -/
inductive RelatednessType where
  | symmetricTaskLevel
  | symmetricUnitLevel
  | asymmetricUnitLevel
  | constant
deriving DecidableEq, Repr

/-- Numpy `np.concatenate(mats, axis=1)`: rows of equal index joined across the
per-layer matrices; the row count is that of the first matrix. -/
def concatAxis1 {α : Type} : List (List (List α)) → List (List α)
  | [] => []
  | m :: ms =>
      (List.range m.length).map
        (fun i => ((m :: ms).map (fun mm => mm.getD i [])).flatten)

/-- Numpy `np.delete(m, [tid - 1 for tid in ids], axis=0)`. -/
def deleteTaskRows {α : Type} (m : List (List α)) (ids : List ℕ) :
    List (List α) :=
  ((List.range m.length).filter
    (fun i => decide (i ∉ ids.map (fun t => t - 1)))).map
    (fun i => m.getD i [])

/-- Source `_get_reduced_i_mat(task_id_or_ids, use_complementary_tasks)`
(SFNBase.py lines 491-507): concatenate the per-layer importance matrices
and delete the rows of the given task ids (or of their complement in
`1..n_tasks`). -/
def getReducedIMat (mats : List (List (List ℚ))) (ids : List ℕ)
    (useComp : Bool) : List (List ℚ) :=
  let imat := concatAxis1 mats
  let ids2 :=
    if useComp then
      ((List.range imat.length).map (fun i => i + 1)).filter
        (fun t => decide (t ∉ ids))
    else ids
  deleteTaskRows imat ids2

/-- Numpy `np.mean(m, axis=0)` (width taken from row 0, as for a rectangular
numpy array). -/
def colMean (m : List (List ℚ)) : List ℚ :=
  (List.range (m.headD []).length).map
    (fun j => (m.map (fun row => row.getD j 0)).sum / (m.length : ℚ))

/-- Broadcast subtraction of a row vector from every row. -/
def subRowVec (m : List (List ℚ)) (v : List ℚ) : List (List ℚ) :=
  m.map (fun row => row.zipWith (fun a b => a - b) v)

/-- Elementwise `np.abs`. -/
def matAbs (m : List (List ℚ)) : List (List ℚ) :=
  m.map (fun row => row.map (fun x => |x|))

/-- Numpy `np.ones(m.shape)`. -/
def onesLike (m : List (List ℚ)) : List (List ℚ) :=
  m.map (fun row => row.map (fun _ => (1 : ℚ)))

/-- Elementwise (Hadamard) product of two matrices. -/
def hadamard (a b : List (List ℚ)) : List (List ℚ) :=
  List.zipWith (fun ra rb => List.zipWith (fun x y => x * y) ra rb) a b

/-- Numpy `np.mean(m)` over all entries. -/
def matMean (m : List (List ℚ)) : ℚ :=
  (m.map List.sum).sum / (((m.map List.length).sum : ℕ) : ℚ)

/-- Source `get_importance_task_related_deviation(task_id_or_ids, relatedness_type,
tau)`.  The transcendental `np.tanh` and the square root inside `npl.norm`
have no exact rational counterpart, so they are taken as parameters
(`tanh`, `sq`); the `constant` kernel never evaluates either.  The assert
`0.1 < np.mean(rho) < 0.9` (non-constant kernels only) and the final shape
assert are modelled as failures (`none`). -/
def getImportanceTaskRelatedDeviation (tanh sq : ℚ → ℚ)
    (mats : List (List (List ℚ))) (ids : List ℕ)
    (rel : RelatednessType) (tau : ℚ) : Option (List ℚ) :=
  let imatRemember := getReducedIMat mats ids false
  let meanRemember := colMean imatRemember
  let nUnits := meanRemember.length
  let deviation := matAbs (subRowVec imatRemember meanRemember)
  let meanForget := colMean (getReducedIMat mats ids true)
  let eps : ℚ := 1 / 10000000
  let rho : List (List ℚ) :=
    match rel with
    | .symmetricTaskLevel =>
        ((subRowVec imatRemember meanForget).map
          (fun row => sq ((row.map (fun x => x ^ 2)).sum))).map
          (fun nrm => List.replicate nUnits (tanh (tau / (eps + nrm))))
    | .symmetricUnitLevel =>
        (subRowVec imatRemember meanForget).map
          (fun row => row.map (fun d => tanh (tau / (eps + |d|))))
    | .asymmetricUnitLevel =>
        imatRemember.map (fun row =>
          row.zipWith (fun x mf => tanh (tau * |x| / (eps + |x - mf|)))
            meanForget)
    | .constant => onesLike imatRemember
  if rel ≠ RelatednessType.constant ∧
      ¬(1 / 10 < matMean rho ∧ matMean rho < 9 / 10) then none
  else
    let rd := colMean (hadamard rho deviation)
    if rd.length = nUnits then some rd else none

/-- Modelled from the spec (§4.3, `constant` kernel, and §8): the plain
per-unit mean over the to-remember task rows of the elementwise absolute
deviation of those rows from their mean, with no ρ weighting. -/
def specConstantRelatedDeviation (mats : List (List (List ℚ)))
    (ids : List ℕ) : List ℚ :=
  let remember := getReducedIMat mats ids false
  colMean (remember.map (fun row =>
    row.zipWith (fun a b => |a - b|) (colMean remember)))

/-! ### Helper lemmas for C8 -/

theorem matAbs_subRowVec (m : List (List ℚ)) (v : List ℚ) :
    matAbs (subRowVec m v)
      = m.map (fun row => row.zipWith (fun a b => |a - b|) v) := by
  simp only [matAbs, subRowVec, List.map_map]
  apply List.map_congr_left
  intro row _
  simp only [Function.comp_apply]
  rw [List.map_zipWith]

theorem zipWith_one_mul (l d : List ℚ) (h : d.length ≤ l.length) :
    List.zipWith (fun x y => x * y) (l.map (fun _ => (1 : ℚ))) d = d := by
  induction l generalizing d with
  | nil =>
      cases d with
      | nil => rfl
      | cons x xs => simp at h
  | cons a l ih =>
      cases d with
      | nil => rfl
      | cons x xs =>
          simp only [List.map_cons, List.zipWith_cons_cons, one_mul]
          rw [ih xs (by simpa using h)]

theorem hadamard_ones_dev (m : List (List ℚ)) (v : List ℚ) :
    hadamard (onesLike m)
        (m.map (fun row => row.zipWith (fun a b => |a - b|) v))
      = m.map (fun row => row.zipWith (fun a b => |a - b|) v) := by
  induction m with
  | nil => rfl
  | cons row rest ih =>
      simp only [onesLike, hadamard, List.map_cons,
        List.zipWith_cons_cons] at *
      rw [ih]
      rw [zipWith_one_mul row _ (by
        rw [List.length_zipWith]
        exact min_le_left _ _)]

theorem colMean_dev_length (m : List (List ℚ)) :
    (colMean (m.map (fun row =>
        row.zipWith (fun a b => |a - b|) (colMean m)))).length
      = (colMean m).length := by
  cases m with
  | nil => rfl
  | cons r0 rest =>
      simp [colMean, List.length_zipWith]

/-! ### Theorem for C8 -/

/-- C8. With `relatedness_type = "constant"` the relatedness scorer
succeeds and returns exactly the per-unit mean over the to-remember task
rows of the elementwise absolute deviation of those rows from their mean —
plain absolute deviation with no ρ weighting — for every importance matrix
tuple, forget-task set, τ, and any interpretation of the transcendental
`tanh`/`sqrt` (which the constant kernel never uses). -/
theorem constantRelatedness_is_plain_deviation (tanh sq : ℚ → ℚ)
    (mats : List (List (List ℚ))) (ids : List ℕ) (tau : ℚ) :
    getImportanceTaskRelatedDeviation tanh sq mats ids
        RelatednessType.constant tau
      = some (specConstantRelatedDeviation mats ids) := by
  have habs := matAbs_subRowVec (getReducedIMat mats ids false)
    (colMean (getReducedIMat mats ids false))
  have hhad := hadamard_ones_dev (getReducedIMat mats ids false)
    (colMean (getReducedIMat mats ids false))
  have hlen := colMean_dev_length (getReducedIMat mats ids false)
  simp only [getImportanceTaskRelatedDeviation, specConstantRelatedDeviation,
    ne_eq, not_true_eq_false, false_and, if_false, habs, hhad, hlen,
    if_pos]

/-- Witness for C8 at a concrete 3-task, one-layer store, forgetting
task 2: the remembered rows are `[1, 2]` and `[5, 6]`, their mean `[3, 4]`,
and the result the constant deviation `[2, 2]`. -/
theorem constantRelatedness_witness :
    getImportanceTaskRelatedDeviation id id
        [[[1, 2], [3, 4], [5, 6]]] [2] RelatednessType.constant 0
      = some (specConstantRelatedDeviation [[[1, 2], [3, 4], [5, 6]]] [2]) ∧
    specConstantRelatedDeviation [[[1, 2], [3, 4], [5, 6]]] [2]
      = [2, 2] := by
  refine ⟨constantRelatedness_is_plain_deviation id id
    [[[1, 2], [3, 4], [5, 6]]] [2] 0, ?_⟩
  norm_num [specConstantRelatedDeviation, getReducedIMat, deleteTaskRows,
    concatAxis1, colMean, List.range_succ]

/-! ## C3: `normalize_importance_matrix_about_task`
(SFNBase.py lines 938-946), over the reals (the Euclidean norm is
irrational in general).

`i_norm = npl.norm(i_mat, axis=1, keepdims=True)` computes one Euclidean
norm per task row of the concatenated matrix, and every layer's sub-matrix
is divided by the same column of norms. -/

/-- The Euclidean norm of one row, `npl.norm(row)`. -/
noncomputable def rowNorm (row : List ℝ) : ℝ :=
  Real.sqrt ((row.map (fun x => x ^ 2)).sum)

/-- Division of a row by a scalar (numpy broadcast). -/
noncomputable def divRow (row : List ℝ) (c : ℝ) : List ℝ :=
  row.map (fun x => x / c)

/-- Source `normalize_importance_matrix_about_task`: every layer's matrix is
divided row-by-row by the per-task norms of the concatenated matrix. -/
noncomputable def normalizeIMat (mats : List (List (List ℝ))) :
    List (List (List ℝ)) :=
  let norms := (concatAxis1 mats).map rowNorm
  mats.map (fun m => List.zipWith divRow m norms)

/-! ### Helper lemmas for C3 -/

theorem normalizeIMat_layers (mats : List (List (List ℝ))) :
    normalizeIMat mats
      = mats.map (fun m =>
          List.zipWith divRow m ((concatAxis1 mats).map rowNorm)) := rfl

theorem concatAxis1_length {α : Type} (mats : List (List (List α))) :
    (concatAxis1 mats).length = (mats.headD []).length := by
  cases mats with
  | nil => rfl
  | cons m ms => simp [concatAxis1]

theorem concatAxis1_eq_map_range {α : Type} (mats : List (List (List α)))
    (hne : mats ≠ []) :
    concatAxis1 mats = (List.range (mats.headD []).length).map
      (fun i => (mats.map (fun mm => mm.getD i [])).flatten) := by
  cases mats with
  | nil => exact absurd rfl hne
  | cons m ms => rfl

theorem getD_map_range {β : Type} (n i : ℕ) (g : ℕ → β) (d : β)
    (h : i < n) :
    ((List.range n).map g).getD i d = g i := by
  rw [List.getD_eq_getElem _ _ (by simpa using h), List.getElem_map,
    List.getElem_range]

theorem getD_zipWith_divRow (m : List (List ℝ)) (ns : List ℝ) (i : ℕ)
    (h1 : i < m.length) (h2 : i < ns.length) :
    (List.zipWith divRow m ns).getD i []
      = divRow (m.getD i []) (ns.getD i 0) := by
  rw [List.getD_eq_getElem _ _ (by rw [List.length_zipWith]; omega),
    List.getElem_zipWith, List.getD_eq_getElem _ _ h1,
    List.getD_eq_getElem _ _ h2]

theorem flatten_map_divRow (L : List (List ℝ)) (c : ℝ) :
    (L.map (fun row => divRow row c)).flatten = divRow L.flatten c := by
  induction L with
  | nil => simp [divRow]
  | cons r L ih =>
      simp only [divRow] at ih ⊢
      simp only [List.map_cons, List.flatten_cons, List.map_append]
      rw [ih]

theorem sum_sq_div (row : List ℝ) (c : ℝ) :
    ((row.map (fun x => x / c)).map (fun x => x ^ 2)).sum
      = ((row.map (fun x => x ^ 2)).sum) / c ^ 2 := by
  induction row with
  | nil => simp
  | cons a l ih =>
      simp only [List.map_cons, List.sum_cons, ih, div_pow, add_div]

theorem sum_sq_nonneg (row : List ℝ) :
    0 ≤ ((row.map (fun x => x ^ 2)).sum) :=
  List.sum_nonneg (by
    intro x hx
    simp only [List.mem_map] at hx
    obtain ⟨a, _, ha⟩ := hx
    rw [← ha]
    exact sq_nonneg a)

theorem rowNorm_divRow (row : List ℝ) (c : ℝ) (hc : 0 ≤ c) :
    rowNorm (divRow row c) = rowNorm row / c := by
  simp only [rowNorm, divRow]
  rw [sum_sq_div, Real.sqrt_div (sum_sq_nonneg row), Real.sqrt_sq_eq_abs,
    abs_of_nonneg hc]

theorem rowNorm_unit (row : List ℝ) (h : rowNorm row ≠ 0) :
    rowNorm (divRow row (rowNorm row)) = 1 := by
  have hnn : 0 ≤ rowNorm row := Real.sqrt_nonneg _
  rw [rowNorm_divRow row (rowNorm row) hnn]
  exact div_self h

theorem zipWith_divRow_ones (m : List (List ℝ)) :
    ∀ ns : List ℝ, m.length ≤ ns.length → (∀ c ∈ ns, c = 1) →
      List.zipWith divRow m ns = m := by
  induction m with
  | nil => intro ns _ _; rfl
  | cons r m ih =>
      intro ns hlen hones
      cases ns with
      | nil => simp at hlen
      | cons c ns =>
          have hc : c = 1 := hones c (List.mem_cons_self c ns)
          have hd : divRow r 1 = r := by
            simp [divRow]
          simp only [List.zipWith_cons_cons, hc, hd]
          rw [ih ns (by simpa using hlen)
            (fun x hx => hones x (List.mem_cons_of_mem c hx))]

theorem concatAxis1_normalizeIMat (mats : List (List (List ℝ)))
    (hwf : ∀ m ∈ mats, m.length = (mats.headD []).length) :
    concatAxis1 (normalizeIMat mats)
      = (concatAxis1 mats).map (fun row => divRow row (rowNorm row)) := by
  cases mats with
  | nil => rfl
  | cons m0 ms =>
      set ns := (concatAxis1 (m0 :: ms)).map rowNorm with hns
      have hnl : ns.length = m0.length := by
        rw [hns, List.length_map, concatAxis1_length, List.headD_cons]
      have hN : normalizeIMat (m0 :: ms)
          = (m0 :: ms).map (fun m => List.zipWith divRow m ns) :=
        normalizeIMat_layers (m0 :: ms)
      rw [hN, concatAxis1_eq_map_range _ (by simp)]
      have hhead : (((m0 :: ms).map
            (fun m => List.zipWith divRow m ns)).headD []).length
          = m0.length := by
        simp only [List.map_cons, List.headD_cons, List.length_zipWith, hnl]
        exact min_self _
      rw [hhead, concatAxis1_eq_map_range (m0 :: ms) (by simp),
        List.headD_cons, List.map_map]
      apply List.map_congr_left
      intro i hi
      rw [List.mem_range] at hi
      simp only [Function.comp_apply]
      rw [List.map_map]
      have hlayer : (m0 :: ms).map ((fun mm => mm.getD i [])
            ∘ (fun m => List.zipWith divRow m ns))
          = ((m0 :: ms).map (fun mm => mm.getD i [])).map
              (fun row => divRow row (ns.getD i 0)) := by
        rw [List.map_map]
        apply List.map_congr_left
        intro m hm
        simp only [Function.comp_apply]
        have hmlen : m.length = m0.length := by
          have := hwf m hm
          simpa using this
        exact getD_zipWith_divRow m ns i (by omega) (by omega)
      rw [hlayer, flatten_map_divRow]
      congr 1
      rw [hns, concatAxis1_eq_map_range (m0 :: ms) (by simp),
        List.headD_cons, List.map_map]
      exact getD_map_range m0.length i _ 0 hi

theorem normalizeIMat_idem (mats : List (List (List ℝ)))
    (hwf : ∀ m ∈ mats, m.length = (mats.headD []).length)
    (hnz : ∀ row ∈ concatAxis1 mats, rowNorm row ≠ 0) :
    normalizeIMat (normalizeIMat mats) = normalizeIMat mats := by
  cases mats with
  | nil => rfl
  | cons m0 ms =>
      have hnl : ((concatAxis1 (m0 :: ms)).map rowNorm).length
          = m0.length := by
        rw [List.length_map, concatAxis1_length, List.headD_cons]
      have hcat := concatAxis1_normalizeIMat (m0 :: ms) hwf
      have hones : ∀ c ∈ (concatAxis1 (normalizeIMat (m0 :: ms))).map
          rowNorm, c = 1 := by
        intro c hc
        rw [hcat] at hc
        simp only [List.map_map, List.mem_map, Function.comp_apply] at hc
        obtain ⟨row, hrow, hcval⟩ := hc
        rw [← hcval]
        exact rowNorm_unit row (hnz row hrow)
      have hn2l : ((concatAxis1 (normalizeIMat (m0 :: ms))).map
          rowNorm).length = m0.length := by
        rw [List.length_map, hcat, List.length_map, concatAxis1_length,
          List.headD_cons]
      rw [normalizeIMat_layers (normalizeIMat (m0 :: ms))]
      conv_rhs => rw [← List.map_id (normalizeIMat (m0 :: ms))]
      apply List.map_congr_left
      intro m hm
      simp only [id_eq]
      apply zipWith_divRow_ones m _ ?_ hones
      rw [normalizeIMat_layers (m0 :: ms)] at hm
      simp only [List.mem_map] at hm
      obtain ⟨mk, hmk, hmval⟩ := hm
      have hmkl : mk.length = m0.length := by
        have := hwf mk hmk
        simpa using this
      rw [← hmval, List.length_zipWith, hn2l, hnl, hmkl]
      exact min_le_right _ _

/-! ### Theorems for C3 -/

/-- C3 counterexample. The claim asserts that some store with nonzero
rows exists on which a second call compounds the normalization (two calls
differ from one); in exact arithmetic no such store exists — after one
normalization every concatenated row has unit norm, so a second call
divides by 1 and is the identity. -/
theorem normalize_compounding_impossible :
    ¬ ∃ mats : List (List (List ℝ)),
      (∀ m ∈ mats, m.length = (mats.headD []).length) ∧
      (∀ row ∈ concatAxis1 mats, rowNorm row ≠ 0) ∧
      normalizeIMat (normalizeIMat mats) ≠ normalizeIMat mats := by
  rintro ⟨mats, hwf, hnz, hne⟩
  exact hne (normalizeIMat_idem mats hwf hnz)

/-- C3 amended. The method `normalize_importance_matrix_about_task` divides each
per-task row of every layer's sub-matrix by the Euclidean norm of that
task's row of the concatenated matrix — the same per-task divisor for every
layer — and it is idempotent in exact arithmetic: whenever every
concatenated row has nonzero norm, a second call leaves the stored
matrices unchanged. -/
theorem normalize_per_row_and_idempotent (mats : List (List (List ℝ)))
    (hwf : ∀ m ∈ mats, m.length = (mats.headD []).length) :
    (∀ li t, li < mats.length → t < (mats.headD []).length →
      ((normalizeIMat mats).getD li []).getD t []
        = divRow ((mats.getD li []).getD t [])
            (rowNorm ((concatAxis1 mats).getD t []))) ∧
    ((∀ row ∈ concatAxis1 mats, rowNorm row ≠ 0) →
      normalizeIMat (normalizeIMat mats) = normalizeIMat mats) := by
  constructor
  · intro li t hli ht
    have hlim : li < (mats.map (fun m => List.zipWith divRow m
        ((concatAxis1 mats).map rowNorm))).length := by
      simpa using hli
    rw [normalizeIMat_layers, List.getD_eq_getElem _ _ hlim,
      List.getElem_map]
    have hmlen : (mats[li]).length = (mats.headD []).length :=
      hwf _ (List.getElem_mem _)
    have hcl : (concatAxis1 mats).length = (mats.headD []).length :=
      concatAxis1_length mats
    rw [getD_zipWith_divRow _ _ t (by omega)
      (by rw [List.length_map]; omega)]
    rw [List.getD_eq_getElem mats [] (by simpa using hli)]
    congr 1
    have ht2 : t < ((concatAxis1 mats).map rowNorm).length := by
      rw [List.length_map]
      omega
    rw [List.getD_eq_getElem _ _ ht2, List.getElem_map,
      List.getD_eq_getElem _ _ (show t < (concatAxis1 mats).length by omega)]
  · exact normalizeIMat_idem mats hwf

/-- Witness for C3 at the one-layer, one-task store `[[3, 4]]`
(row norm 5). -/
theorem normalize_per_row_and_idempotent_witness :
    ((normalizeIMat [[[(3 : ℝ), 4]]]).getD 0 []).getD 0 []
      = divRow [(3 : ℝ), 4]
          (rowNorm ((concatAxis1 [[[(3 : ℝ), 4]]]).getD 0 [])) ∧
    normalizeIMat (normalizeIMat [[[(3 : ℝ), 4]]])
      = normalizeIMat [[[(3 : ℝ), 4]]] := by
  have h := normalize_per_row_and_idempotent [[[(3 : ℝ), 4]]]
    (by
      intro m hm
      simp only [List.mem_singleton] at hm
      rw [hm]
      rfl)
  refine ⟨h.1 0 0 (by simp) (by simp), h.2 ?_⟩
  intro row hrow
  have hcat : concatAxis1 [[[(3 : ℝ), 4]]] = [[(3 : ℝ), 4]] := by
    simp [concatAxis1, List.range_succ]
  rw [hcat] at hrow
  simp only [List.mem_singleton] at hrow
  rw [hrow, rowNorm, Real.sqrt_ne_zero']
  norm_num

/-- Witness for C7: the identity ranking over the 10 units. -/
theorem layerwise_pruning_proportional_witness :
    (getSelectedByLayerwisePruning [4, 6] (List.range 10) 3).map List.length
      = [1, 1] ∧
    (getSelectedByLayerwisePruning [4, 6] (List.range 10) 3).flatten.length
      = 2 :=
  layerwise_pruning_proportional (List.range 10) (List.Perm.refl _)
